import Mathlib

/-!
Verification of the gradient engines of the `gradient-reverse-mode` repository.

The repository computes analytic gradients of expectation values
⟨ψ(θ)|O|ψ(θ)⟩ of parameterized quantum circuits.  Two layers are embedded:

* a gate-level layer (`Gate`, `gradient_lookup`, `analytic_gradient`) mirroring
  `quantum_brackpropagation/gradient_lookup.py`: the per-gate derivative lookup
  table and the product-rule expansion of a unitary block.  Derivative-term
  coefficients live in `CQ` (complex numbers with rational parts — the only
  coefficients the code produces are ±i/2 and ±i/4 times a rational chain
  factor).
* a matrix-level layer (`Engine`, `referenceRaw`, `iterativeRaw`,
  `reference_gradients`, `iterative_gradients` from
  `quantum_brackpropagation/circuit_gradients.py`, and `gradients_single` /
  `gradients` from
  `quantum_circuit_gradients/backpropagation_state_gradient.py`).  The
  circuit/simulation collaborator (qiskit) is out of scope per the spec, so a
  bound unitary block is embedded as its matrix, a state as a complex vector,
  `Statevector.evolve` as `Matrix.mulVec`, and the analytic-gradient terms of a
  block (already bound, as both engines bind them before use) as a list of
  (complex coefficient, matrix) pairs shared by both engines — in the source
  both engines call the same `analytic_gradient` on the same stored block.
  `QuantumCircuit.inverse()` of a bound block is an input (`Uinv`) constrained
  by the hypothesis that it is a left inverse of the block's matrix.

Floating-point arithmetic of the source is modelled by exact complex/real
arithmetic; "equal within tolerance" claims become exact equalities.
-/

namespace QGrad

open Matrix

/-- A computable semiring instance for ℂ (the default resolution path goes
through the CStar-algebra structure, whose data has no executable code); it is
a projection of the canonical ring structure, so it is definitionally the
usual arithmetic of ℂ. -/
instance (priority := 10000) complexNUNASemiring : NonUnitalNonAssocSemiring ℂ :=
  (Ring.toNonUnitalRing (α := ℂ)).toNonUnitalNonAssocRing.toNonUnitalNonAssocSemiring

/-- Complex numbers with rational real and imaginary part: the coefficient
field of the derivative lookup table (`0.5j * param_derivative` etc. in
`gradient_lookup.py`). -/
structure CQ where
  re : ℚ
  im : ℚ
deriving DecidableEq

/-- Complex zero. -/
def cqZero : CQ := ⟨0, 0⟩

/-- Complex one. -/
def cqOne : CQ := ⟨1, 0⟩

/-- Embed a rational as a complex coefficient. -/
def cqOfQ (q : ℚ) : CQ := ⟨q, 0⟩

/-- Coefficient addition. -/
def cqAdd (a b : CQ) : CQ := ⟨a.re + b.re, a.im + b.im⟩

/-- Coefficient multiplication. -/
def cqMul (a b : CQ) : CQ := ⟨a.re * b.re - a.im * b.im, a.re * b.im + a.im * b.re⟩

/-- Coefficient negation. -/
def cqNeg (a : CQ) : CQ := ⟨-a.re, -a.im⟩

/-- A qiskit `ParameterExpression` as the repository uses it: an affine
expression `coeff * (free parameter) + const` in a single free `Parameter`
(identified by a natural number).  The circuits of the repository
(`EfficientSU2` ansätze) attach raw parameters to gates, so affine expressions
with one free parameter cover every expression the code differentiates;
`param.gradient(list(param.parameters)[0])` is the constant `coeff`. -/
structure ParamExpr where
  param : ℕ
  coeff : ℚ
  const : ℚ
deriving DecidableEq

/-- `param.gradient(first free parameter)` of `gradient_lookup.py` line 13:
the chain-rule factor of the expression. -/
def ParamExpr.gradient (e : ParamExpr) : ℚ := e.coeff

/-- The free parameters of the expression (`param.parameters`). -/
def ParamExpr.freeParams (e : ParamExpr) : List ℕ := [e.param]

/-- The gate kinds the repository's circuits contain: the six parameterized
rotation kinds supported by `gradient_lookup`, the Pauli gates used inside the
derivative circuits, and the non-parameterized gates H and CX occurring in
decomposed ansätze (neither is supported by `gradient_lookup`). -/
inductive Gate where
  | rx (θ : ParamExpr)
  | ry (θ : ParamExpr)
  | rz (θ : ParamExpr)
  | crx (θ : ParamExpr)
  | cry (θ : ParamExpr)
  | crz (θ : ParamExpr)
  | x
  | y
  | z
  | h
  | cx
deriving DecidableEq

/-- `gate.params`: the parameter expressions carried by the gate. -/
def Gate.params : Gate → List ParamExpr
  | .rx θ | .ry θ | .rz θ | .crx θ | .cry θ | .crz θ => [θ]
  | _ => []

/-- `gate.num_qubits`. -/
def Gate.numQubits : Gate → ℕ
  | .crx _ | .cry _ | .crz _ | .cx => 2
  | _ => 1

/-- The six gate types `gradient_lookup` supports. -/
def Gate.isSupported : Gate → Bool
  | .rx _ | .ry _ | .rz _ | .crx _ | .cry _ | .crz _ => true
  | _ => false

/-- Qubit arguments of one instruction (`op[1:]`, the qargs). -/
abbrev QArgs := List ℕ

/-- A circuit: the ordered instruction list, each gate with its qargs. -/
abbrev Circ := List (Gate × QArgs)

/-- Whether an `Except` computation returned normally. -/
def exOk {α : Type} : Except String α → Bool
  | .ok _ => true
  | .error _ => false

/-- `gradient_lookup(gate)` of `gradient_lookup.py`: the derivative of one
parameterized gate as a list of (coefficient, replacement circuit) pairs; the
replacement circuits use the gate's local qubit indices (control 0, target 1
for the controlled rotations).  A gate outside the six supported types fails:
with no parameters it fails at `gate.params[0]` (IndexError), and otherwise at
the final `raise NotImplementedError`. -/
def gradient_lookup (gate : Gate) : Except String (List (CQ × Circ)) :=
  match gate with
  | .rx θ => .ok [(cqMul (CQ.mk 0 (1/2)) (cqOfQ θ.gradient), [(.rx θ, [0]), (.x, [0])])]
  | .ry θ => .ok [(cqMul (CQ.mk 0 (1/2)) (cqOfQ θ.gradient), [(.ry θ, [0]), (.y, [0])])]
  | .rz θ => .ok [(cqMul (CQ.mk 0 (1/2)) (cqOfQ θ.gradient), [(.rz θ, [0]), (.z, [0])])]
  | .crx θ => .ok
      [(cqMul (CQ.mk 0 (1/4)) (cqOfQ θ.gradient), [(.rx θ, [1]), (.x, [1])]),
       (cqMul (CQ.mk 0 (-(1/4))) (cqOfQ θ.gradient), [(.z, [0]), (.rx θ, [1]), (.x, [1])])]
  | .cry θ => .ok
      [(cqMul (CQ.mk 0 (1/4)) (cqOfQ θ.gradient), [(.ry θ, [1]), (.y, [1])]),
       (cqMul (CQ.mk 0 (-(1/4))) (cqOfQ θ.gradient), [(.z, [0]), (.ry θ, [1]), (.y, [1])])]
  | .crz θ => .ok
      [(cqMul (CQ.mk 0 (1/4)) (cqOfQ θ.gradient), [(.rz θ, [1]), (.z, [1])]),
       (cqMul (CQ.mk 0 (-(1/4))) (cqOfQ θ.gradient), [(.z, [0]), (.rz θ, [1]), (.z, [1])])]
  | g =>
    if g.params.isEmpty then .error "IndexError: list index out of range"
    else .error "NotImplementedError: Cannot implement for gate"

/-- The differentiation condition of `analytic_gradient` (gradient_lookup.py
line 76): the gate is differentiated when no target parameter is given and the
gate has parameters, or when the target parameter occurs among the free
parameters of the gate's parameter expressions. -/
def diffCond (parameter : Option ℕ) (g : Gate) : Bool :=
  match parameter with
  | none => !g.params.isEmpty
  | some p => g.params.any (fun e => p ∈ e.freeParams)

/-- The free parameters of a circuit (`circuit.parameters`). -/
def circParams (circuit : Circ) : List ℕ :=
  (circuit.map (fun gq => (gq.1.params.map ParamExpr.freeParams).flatten)).flatten

/-- The single identity term contributed by a pass-through gate
(`summands += [[[1, gate]]]`), placed at the gate's local qubit indices. -/
def passthroughTerm (g : Gate) : List (CQ × Circ) :=
  [(cqOne, [(g, List.range g.numQubits)])]

/-- Map a fallible function over a list, propagating the first error — the
Python loop raises at the first offending element. -/
def exMapM {α β : Type} (f : α → Except String β) : List α → Except String (List β)
  | [] => .ok []
  | a :: as =>
    match f a with
    | .error e => .error e
    | .ok b => (exMapM f as).map (fun bs => b :: bs)

/-- The per-gate term lists of `analytic_gradient`'s expansion (the `summands`
list): a differentiated gate contributes its `gradient_lookup` terms, any other
gate its single identity term; an unsupported differentiated gate propagates
the lookup error. -/
def summandsFor (circuit : Circ) (parameter : Option ℕ) :
    Except String (List (List (CQ × Circ))) :=
  exMapM (fun gq =>
    if diffCond parameter gq.1 then gradient_lookup gq.1
    else Except.ok (passthroughTerm gq.1)) circuit

/-- `itertools.product`: the Cartesian product of the per-gate term lists,
leftmost factor varying slowest. -/
def cartProd {α : Type} : List (List α) → List (List α)
  | [] => [[]]
  | l :: ls => l.flatMap (fun a => (cartProd ls).map (fun c => a :: c))

/-- `summand_circuit.append(a[1], *op_context[i])`: inline a local replacement
circuit at the original instruction's qubit arguments (local qubit k of the
replacement goes to qargs[k]). -/
def appendAt (qa : QArgs) (lc : Circ) : Circ :=
  lc.map (fun gq => (gq.1, gq.2.map (fun k => qa.getD k 0)))

/-- Assemble one product-rule combination: multiply the coefficients from left
to right (`coeff *= a[0]`) and concatenate the replacement circuits at their
original qubit arguments, preserving the original gate order. -/
def assembleTerm (opctx : List QArgs) (combo : List (CQ × Circ)) : CQ × Circ :=
  ((combo.map Prod.fst).foldl cqMul cqOne,
   ((combo.zip opctx).map (fun t => appendAt t.2 t.1.2)).flatten)

/-- The full expansion of `analytic_gradient`: one assembled term per element
of the Cartesian product of the per-gate term lists. -/
def expandSummands (opctx : List QArgs) (summands : List (List (CQ × Circ))) :
    List (CQ × Circ) :=
  (cartProd summands).map (assembleTerm opctx)

/-- `analytic_gradient(circuit, parameter)` of `gradient_lookup.py`: fails when
an explicit target parameter is not among the circuit's free parameters,
otherwise expands the Cartesian product of the per-gate term lists. -/
def analytic_gradient (circuit : Circ) (parameter : Option ℕ) :
    Except String (List (CQ × Circ)) :=
  match parameter with
  | some p =>
    if p ∈ circParams circuit then
      (summandsFor circuit parameter).map (expandSummands (circuit.map Prod.snd))
    else .error "Parameter not in this circuit."
  | none => (summandsFor circuit none).map (expandSummands (circuit.map Prod.snd))

/-- The instruction at position `i` of a circuit (an arbitrary default keeps
the function total; it is only read at positions below the length). -/
def gateAt (circuit : Circ) (i : ℕ) : Gate × QArgs := circuit.getD i (Gate.x, [])

/-- Positions of the gates of the block that depend on the target parameter,
walking the block once (`i` is the position of the head of the remaining
list). -/
def diffPositionsFrom (p : ℕ) : Circ → ℕ → List ℕ
  | [], _ => []
  | gq :: rest, i =>
    if diffCond (some p) gq.1 then i :: diffPositionsFrom p rest (i + 1)
    else diffPositionsFrom p rest (i + 1)

/-- Positions of the gates of the block that depend on the target parameter. -/
def diffPositions (circuit : Circ) (p : ℕ) : List ℕ :=
  diffPositionsFrom p circuit 0

/-- Modelled from the spec (§4.3): the per-gate term lists of the summand
`g1·…·(dgi)·…·gk` of the product rule — only the gate at position `i` is
differentiated, every other gate passes through. -/
def summandsOnlyAt (circuit : Circ) (i : ℕ) :
    Except String (List (List (CQ × Circ))) :=
  (gradient_lookup (gateAt circuit i).1).map (fun di =>
    (circuit.take i).map (fun gq => passthroughTerm gq.1)
    ++ di :: (circuit.drop (i + 1)).map (fun gq => passthroughTerm gq.1))

/-- Modelled from the spec (§4.3): the multi-gate product-rule derivative
`d(g1·g2·…·gk) = Σ over i of g1·…·(dgi)·…·gk` of a block with respect to a
target parameter, each summand assembled exactly as `analytic_gradient`
assembles its terms, the sum being the concatenation of the summands' term
lists. -/
def specProductRuleTerms (circuit : Circ) (p : ℕ) :
    Except String (List (CQ × Circ)) :=
  (exMapM
    (fun i => (summandsOnlyAt circuit i).map (expandSummands (circuit.map Prod.snd)))
    (diffPositions circuit p)).map List.flatten

/-- The term count `gradient_lookup` would contribute for a gate. -/
def lookupLen (g : Gate) : ℕ :=
  match gradient_lookup g with
  | .ok l => l.length
  | .error _ => 0

/-- Per-gate factor of the expansion size: 1 for a pass-through gate, the
lookup's term count for a differentiated gate. -/
def termCount (parameter : Option ℕ) (g : Gate) : ℕ :=
  if diffCond parameter g then lookupLen g else 1

/-- The expansion size the spec predicts: the product over the block's gates of
each gate's term count. -/
def termCountProd (circuit : Circ) (parameter : Option ℕ) : ℕ :=
  (circuit.map (fun gq => termCount parameter gq.1)).prod

/-- The weight a formal linear combination of circuits assigns to one circuit:
the sum of the coefficients of the terms carrying exactly that circuit. -/
def termWeight (ts : List (CQ × Circ)) (c : Circ) : CQ :=
  ((ts.filter (fun t => t.2 = c)).map Prod.fst).foldl cqAdd cqZero

/-- The raw parameter `p₀` (coefficient 1, constant 0). -/
def rawP : ParamExpr := ⟨0, 1, 0⟩

/-- A block in which two gates depend on the same parameter. -/
def badBlock : Circ := [(.rx rawP, [0]), (.rx rawP, [0])]

/-- A circuit produced by the product rule on `badBlock` but not by
`analytic_gradient`. -/
def wCirc : Circ := [(.rx rawP, [0]), (.x, [0]), (.rx rawP, [0])]

/-- A supported block: one non-parameterized gate followed by one rotation. -/
def goodBlock : Circ := [(.x, [0]), (.rx rawP, [0])]

/-- A d × d complex matrix: the matrix of a bound unitary block or of the
observable. -/
abbrev Mat (d : ℕ) : Type := Matrix (Fin d) (Fin d) ℂ

/-- A state vector of dimension d (`Statevector.data`). -/
abbrev QState (d : ℕ) : Type := Fin d → ℂ

/-- `lam.conjugate().data.dot(phi.data)`: the inner product both engines
compute. -/
def conj_dot {d : ℕ} (a b : QState d) : ℂ := Matrix.dotProduct (star a) b

/-- `reduce(lambda x, y: x.evolve(y), ulist, state)`: evolve a state through a
list of blocks in order. -/
def evolveSeq {d : ℕ} (v : QState d) (L : List (Mat d)) : QState d :=
  L.foldl (fun st M => M.mulVec st) v

/-- The product of a block list as a single matrix, last block leftmost, so
that evolving through the list is multiplication by this matrix. -/
def blockProd {d : ℕ} (L : List (Mat d)) : Mat d :=
  L.foldl (fun P M => M * P) 1

/-- `phi.expectation_value(op)`: ⟨v|M|v⟩. -/
def expectation_value {d : ℕ} (v : QState d) (M : Mat d) : ℂ :=
  Matrix.dotProduct (star v) (M.mulVec v)

/-- One `StateGradient` evaluation of `circuit_gradients.py`, with the
circuit-level data already bound for the evaluation at hand: the observable
matrix, the bound full-ansatz matrix, the initial state, the bound block
matrices `U` (`self.unitaries` after `_bind`), their circuit inverses `Uinv`
(`_bind(uj, parameter_binds).inverse()`), the bound analytic-gradient term
lists of each block (both engines compute and bind the same
`analytic_gradient(self.unitaries[j], self.paramlist[j][0])`), and
`self.paramlist` (`none` exactly when the engine was constructed with
`target_parameters=None`, in which case `parameter_binds` must also be absent). -/
structure Engine (d : ℕ) where
  op : Mat d
  ansatzM : Mat d
  init : QState d
  U : List (Mat d)
  Uinv : List (Mat d)
  deriv : List (List (ℂ × Mat d))
  paramlist : Option (List (List ℕ))

/-- `lam = self.state_in.evolve(ansatz).evolve(op)` of the reference engine —
also the iterative engine's initial `lam`. -/
def lam0 {d : ℕ} (eng : Engine d) : QState d :=
  eng.op.mulVec (eng.ansatzM.mulVec eng.init)

/-- The spliced forward state of the reference engine: the initial state
evolved through `bound_unitaries[:j] + [gate] + bound_unitaries[j+1:]`. -/
def refTermState {d : ℕ} (eng : Engine d) (j : ℕ) (G : Mat d) : QState d :=
  evolveSeq eng.init (eng.U.take j ++ [G] ++ eng.U.drop (j + 1))

/-- The reference engine's per-block derivative:
`2 * Re(Σ coeff · ⟨lam | phi_term⟩)`. -/
def refGrad {d : ℕ} (eng : Engine d) (j : ℕ) : ℝ :=
  2 * ((eng.deriv.getD j []).foldl
    (fun acc cg => acc + cg.1 * conj_dot (lam0 eng) (refTermState eng j cg.2)) 0).re

/-- The raw per-block gradient list of `reference_gradients` (the `grads` list
its loop over `j in range(num_parameters)` builds). -/
def referenceRaw {d : ℕ} (eng : Engine d) : List ℝ :=
  (List.range eng.U.length).map (refGrad eng)

/-- The mutable state of the iterative engines' backward loop: the running
ket `phi`, the running bra `lam`, and the gradient list accumulated so far (in
reverse block order, as the loop walks `reversed(range(num_parameters))`). -/
structure IterState (d : ℕ) where
  phi : QState d
  lam : QState d
  grads : List ℝ

/-- One iteration of the backward loop at block index `j`: un-evolve `phi` by
the block inverse, emit `2 * Re(Σ coeff · ⟨lam | phi.evolve(gate)⟩)`, and
un-evolve `lam` too unless `j = 0`.  (`iterative_gradients` computes
`2 * sum(...).real` and `gradients_single` `(2 * sum(...)).real`; the two are
the same real number.) -/
def iterStep {d : ℕ} (Uinv : List (Mat d)) (deriv : List (List (ℂ × Mat d)))
    (j : ℕ) (s : IterState d) : IterState d :=
  let dj := deriv.getD j []
  let ujd := Uinv.getD j 1
  let phi2 := ujd.mulVec s.phi
  let g := 2 * (dj.foldl
    (fun acc cg => acc + cg.1 * conj_dot s.lam (cg.2.mulVec phi2)) 0).re
  { phi := phi2,
    lam := if 0 < j then ujd.mulVec s.lam else s.lam,
    grads := s.grads ++ [g] }

/-- The backward loop `for j in reversed(range(n))`: `iterRun Uinv deriv n`
processes block indices n-1, n-2, …, 0 in that order. -/
def iterRun {d : ℕ} (Uinv : List (Mat d)) (deriv : List (List (ℂ × Mat d))) :
    ℕ → IterState d → IterState d
  | 0, s => s
  | j + 1, s => iterRun Uinv deriv j (iterStep Uinv deriv j s)

/-- The raw per-block gradient list of `iterative_gradients`: run the backward
loop from `phi = init.evolve(ansatz)`, `lam = phi.evolve(op)` and reverse the
accumulated list (`list(reversed(grads))`). -/
def iterativeRaw {d : ℕ} (eng : Engine d) : List ℝ :=
  let phi := eng.ansatzM.mulVec eng.init
  let lam := eng.op.mulVec phi
  (iterRun eng.Uinv eng.deriv eng.U.length
    { phi := phi, lam := lam, grads := [] }).grads.reverse

/-- The insertion-ordered dictionary update
`grads[param] = grads.get(param, 0) + grad`: update the first entry with the
given key, or append a fresh entry at the end. -/
def dictAdd : List (ℕ × ℝ) → ℕ → ℝ → List (ℕ × ℝ)
  | [], p, g => [(p, g)]
  | (q, v) :: rest, p, g =>
    if q = p then (q, v + g) :: rest else (q, v) :: dictAdd rest p g

/-- The (key, derivative) pair each block contributes to the accumulator:
`zip(self.paramlist, gradients)` keyed by `paramlist[0]` (every block of the
supported configuration carries exactly one parameter; `headD` totalizes the
indexing). -/
def blockPairs (paramlist : List (List ℕ)) (gradients : List ℝ) : List (ℕ × ℝ) :=
  (paramlist.zip gradients).map (fun pg => (pg.1.headD 0, pg.2))

/-- `_accumulate_product_rule` (identical in `circuit_gradients.py` and
`backpropagation_state_gradient.py`): walk the per-block derivative list once,
summing into an insertion-ordered mapping keyed by each block's parameter;
return `(list(grads.values()), list(grads.keys()))`. -/
def accumulate_product_rule (paramlist : List (List ℕ)) (gradients : List ℝ) :
    List ℝ × List ℕ :=
  let m := (blockPairs paramlist gradients).foldl
    (fun acc pg => dictAdd acc pg.1 pg.2) []
  (m.map Prod.snd, m.map Prod.fst)

/-- The return value of a `StateGradient` engine call: the raw per-block list
(no-binds path), the accumulated per-parameter values with their parameter
order (binds path, as returned with `return_parameters=True`), or an error. -/
inductive GradOut where
  | err (msg : String)
  | raw (grads : List ℝ)
  | acc (grads : List ℝ) (params : List ℕ)

/-- `StateGradient.reference_gradients(parameter_binds)`: with a paramlist but
no binds it raises; with no paramlist and no binds it returns the raw per-block
list; with no paramlist but binds it reaches `zip(None, …)` and raises; with
both it accumulates the product rule over the raw list. -/
def reference_gradients {d : ℕ} (eng : Engine d) (hasBinds : Bool) : GradOut :=
  match eng.paramlist, hasBinds with
  | some _, false => .err "If you compute the gradients with respect to a ansatz with free parameters, you must pass a dictionary of parameter binds."
  | none, false => .raw (referenceRaw eng)
  | none, true => .err "TypeError: zip argument must support iteration"
  | some pl, true =>
    let a := accumulate_product_rule pl (referenceRaw eng)
    .acc a.1 a.2

/-- `StateGradient.iterative_gradients(parameter_binds)`: same call structure
as the reference engine, with the raw list produced by the backward loop. -/
def iterative_gradients {d : ℕ} (eng : Engine d) (hasBinds : Bool) : GradOut :=
  match eng.paramlist, hasBinds with
  | some _, false => .err "If you compute the gradients with respect to a ansatz with free parameters, you must pass a dictionary of parameter binds."
  | none, false => .raw (iterativeRaw eng)
  | none, true => .err "TypeError: zip argument must support iteration"
  | some pl, true =>
    let a := accumulate_product_rule pl (iterativeRaw eng)
    .acc a.1 a.2

/-- The per-sample bound data of one `BackpropagationStateGradient` row: the
ansatz, blocks, block inverses and analytic-gradient terms bound at that row's
parameter values. -/
structure BoundSample (d : ℕ) where
  ansatzM : Mat d
  U : List (Mat d)
  Uinv : List (Mat d)
  deriv : List (List (ℂ × Mat d))

/-- `Statevector.from_label("0" * num_qubits)`: the all-zeros basis state. -/
def basis0 (d : ℕ) : QState d := fun i => if i.val = 0 then 1 else 0

/-- The raw per-block gradient list of `gradients_single`'s backward loop
(identical to the `iterative_gradients` loop), from
`phi = Statevector.from_label("0"*n).evolve(ansatz)`, `lam = phi.evolve(op)`. -/
def singleRawGrads {d : ℕ} (op : Mat d) (s : BoundSample d) : List ℝ :=
  let phi := s.ansatzM.mulVec (basis0 d)
  let lam := op.mulVec phi
  (iterRun s.Uinv s.deriv s.U.length
    { phi := phi, lam := lam, grads := [] }).grads.reverse

/-- `BackpropagationStateGradient.gradients_single(parameter_binds)`: compute
the expectation value up front from the forward state; read the process-wide
flag `os.environ.get("ESTADO_GLOBAL_EN_ENTRENAMIENTO", "True")` (`env` is its
value, `none` when unset); when the flag reads `"True"` run the backward loop,
accumulate the product rule over `self.paramlist` (`pl`), and reindex the
accumulated values into the ansatz's parameter order (`aps`,
`self.ansatz.parameters`) via
`[accumulated[unique_params.index(p)] for p in self.ansatz.parameters]`;
otherwise return `None` for the gradient. -/
def gradients_single {d : ℕ} (op : Mat d) (pl : List (List ℕ)) (aps : List ℕ)
    (s : BoundSample d) (env : Option String) : ℂ × Option (List ℝ) :=
  let phi := s.ansatzM.mulVec (basis0 d)
  let e := expectation_value phi op
  if (env.getD "True") = "True" then
    let a := accumulate_product_rule pl (singleRawGrads op s)
    (e, some (aps.map (fun p => a.1.getD (a.2.indexOf p) 0)))
  else (e, none)

/-- The batch driver's dispatch decision.  In the source
(`backpropagation_state_gradient.py` lines 71-78 and 86-87) the whole
threshold / process-pool branch is commented out and `map_func = map` is
assigned unconditionally: no batch size uses the process pool. -/
def usesProcessPool (_batch_size : ℕ) : Bool := false

/-- `BackpropagationStateGradient.gradients(parameter_binds)`: map
`gradients_single` serially over the rows, collect every expectation value,
collect each non-`None` gradient vector, and return `None` for the gradient
list when none was collected. -/
def gradients {d : ℕ} (op : Mat d) (pl : List (List ℕ)) (aps : List ℕ)
    (rows : List (BoundSample d)) (env : Option String) :
    List ℂ × Option (List (List ℝ)) :=
  let results := rows.map (fun s => gradients_single op pl aps s env)
  let es := results.map Prod.fst
  let gs := results.filterMap Prod.snd
  (es, if gs.isEmpty then none else some gs)

/-- The physical well-formedness of one bound evaluation, true of every
evaluation the source performs: every bound block matrix is unitary, the
circuit inverse `Uinv` is a left inverse of its block, and — the Circuit
Splitter's contract (spec §4.2, `split_circuit.py` is consumed as a black
box) — the bound ansatz is the composition of the bound blocks. -/
structure WellFormed {d : ℕ} (eng : Engine d) : Prop where
  unitary_left : ∀ j, j < eng.U.length →
    (eng.U.getD j 1)ᴴ * eng.U.getD j 1 = 1
  unitary_right : ∀ j, j < eng.U.length →
    eng.U.getD j 1 * (eng.U.getD j 1)ᴴ = 1
  inv_mul : ∀ j, j < eng.U.length →
    eng.Uinv.getD j 1 * eng.U.getD j 1 = 1
  ansatz_eq : eng.ansatzM = blockProd eng.U

/-- A concrete well-formed one-dimensional engine with one block and a
paramlist (the bound-binding call path). -/
def engW : Engine 1 :=
  { op := 1, ansatzM := 1, init := fun _ => 1, U := [1], Uinv := [1],
    deriv := [[((1 : ℂ), (1 : Mat 1))]], paramlist := some [[0]] }

/-- The same engine constructed with `target_parameters=None`. -/
def engW0 : Engine 1 :=
  { engW with paramlist := none }

/-- The backward-sweep invariant value of `lam` before processing block index
j−1: the original `lam` pulled back through the inverses of blocks j .. n−1,
i.e. `(blockProd (U.drop j))ᴴ` applied to the initial `lam`. -/
def lamAt {d : ℕ} (eng : Engine d) (j : ℕ) : QState d :=
  ((blockProd (eng.U.drop j))ᴴ).mulVec (lam0 eng)

/-- Modelled from the spec (§4.6): the order in which keys are first seen while
walking the list once, continuing from an already-seen prefix. -/
def specFirstSeenFrom (seen : List ℕ) : List ℕ → List ℕ
  | [] => []
  | p :: ps =>
    if p ∈ seen then specFirstSeenFrom seen ps
    else p :: specFirstSeenFrom (seen ++ [p]) ps

/-- Modelled from the spec (§4.6): the sum of the derivatives of all blocks
tagged with a given parameter. -/
def specKeySum (p : ℕ) (pairs : List (ℕ × ℝ)) : ℝ :=
  ((pairs.filter (fun x => x.1 = p)).map Prod.snd).sum

/-! ### Theorems -/

/-- C2: for every supported parameterized gate, `gradient_lookup` returns
exactly the gate-specific derivative table: for RX/RY/RZ(θ) exactly one term
with coefficient i/2 times the chain factor dθ/d(parameter), whose circuit
applies RP(θ) and then its generator P; for CRX/CRY/CRZ(θ) exactly two terms
with coefficients +(1/4)i·(chain factor) and its exact negation (equal
magnitude, opposite sign), where the negative term carries an extra Z gate on
the control qubit (local qubit 0) and the positive term carries no
control-qubit phase. -/
theorem C2_gradient_lookup_table : ∀ θ : ParamExpr,
    (gradient_lookup (Gate.rx θ)
      = .ok [(CQ.mk 0 (θ.gradient / 2), [(.rx θ, [0]), (.x, [0])])])
  ∧ (gradient_lookup (Gate.ry θ)
      = .ok [(CQ.mk 0 (θ.gradient / 2), [(.ry θ, [0]), (.y, [0])])])
  ∧ (gradient_lookup (Gate.rz θ)
      = .ok [(CQ.mk 0 (θ.gradient / 2), [(.rz θ, [0]), (.z, [0])])])
  ∧ (gradient_lookup (Gate.crx θ)
      = .ok [(CQ.mk 0 (θ.gradient / 4), [(.rx θ, [1]), (.x, [1])]),
             (cqNeg (CQ.mk 0 (θ.gradient / 4)), [(.z, [0]), (.rx θ, [1]), (.x, [1])])])
  ∧ (gradient_lookup (Gate.cry θ)
      = .ok [(CQ.mk 0 (θ.gradient / 4), [(.ry θ, [1]), (.y, [1])]),
             (cqNeg (CQ.mk 0 (θ.gradient / 4)), [(.z, [0]), (.ry θ, [1]), (.y, [1])])])
  ∧ (gradient_lookup (Gate.crz θ)
      = .ok [(CQ.mk 0 (θ.gradient / 4), [(.rz θ, [1]), (.z, [1])]),
             (cqNeg (CQ.mk 0 (θ.gradient / 4)), [(.z, [0]), (.rz θ, [1]), (.z, [1])])]) := by
  intro θ
  refine ⟨?_, ?_, ?_, ?_, ?_, ?_⟩ <;>
    · simp [gradient_lookup, cqMul, cqOfQ, cqNeg]
      ring_nf

/-- C5: `gradient_lookup` returns normally exactly on the six supported gate
types (each of which carries one free parameter expression), and fails with an
immediately surfaced error on every other gate type. -/
theorem C5_unsupported_gate_error :
    ∀ g : Gate, exOk (gradient_lookup g) = g.isSupported := by
  intro g
  cases g <;> rfl

/-- On `badBlock` — two RX gates driven by the same parameter —
`analytic_gradient` returns the single cross term
(i/2)·(i/2) = −1/4 on RX·X·RX·X. -/
theorem analytic_badBlock_eval : analytic_gradient badBlock (some 0)
    = .ok [(CQ.mk (-(1/4)) 0,
        [(.rx rawP, [0]), (.x, [0]), (.rx rawP, [0]), (.x, [0])])] := by
  simp [analytic_gradient, summandsFor, exMapM, Except.map, circParams, rawP, badBlock, diffCond,
    Gate.params, ParamExpr.freeParams, gradient_lookup, cartProd, expandSummands, assembleTerm,
    appendAt, passthroughTerm, cqMul, cqOfQ, cqOne, ParamExpr.gradient, Gate.numQubits]
  norm_num

/-- On `badBlock` the product rule has two summands, each with coefficient
i/2: RX·X·RX (differentiate the first gate) and RX·RX·X (the second). -/
theorem specPR_badBlock_eval : specProductRuleTerms badBlock 0
    = .ok [(CQ.mk 0 (1/2), [(.rx rawP, [0]), (.x, [0]), (.rx rawP, [0])]),
           (CQ.mk 0 (1/2), [(.rx rawP, [0]), (.rx rawP, [0]), (.x, [0])])] := by
  simp [specProductRuleTerms, summandsOnlyAt, diffPositions, diffPositionsFrom, gateAt,
    exMapM, Except.map, circParams, rawP, badBlock, diffCond, Gate.params, ParamExpr.freeParams,
    gradient_lookup, cartProd, expandSummands, assembleTerm, appendAt, passthroughTerm, cqMul,
    cqOfQ, cqOne, ParamExpr.gradient, Gate.numQubits]

/-- C3 counterexample: for the block `badBlock` (RX(p)·RX(p), both gates driven
by the target parameter) the weighted sum of the terms `analytic_gradient`
returns differs from the product-rule derivative: at the circuit RX·X·RX the
product rule has weight i/2 while `analytic_gradient`'s expansion has weight 0
(its only term is the cross term −1/4 · RX·X·RX·X, which is also not
operator-equal to the product-rule sum: at p = 0 it is −(1/4)·I while the
product rule gives i·X). -/
theorem C3_product_rule_counterexample :
    termWeight ((analytic_gradient badBlock (some 0)).toOption.getD []) wCirc
    ≠ termWeight ((specProductRuleTerms badBlock 0).toOption.getD []) wCirc := by
  rw [analytic_badBlock_eval, specPR_badBlock_eval]
  simp [termWeight, wCirc, rawP, cqAdd, cqZero, Except.toOption]

/-- Mapping an everywhere-`some` function through `filterMap` keeps every
element. -/
theorem filterMap_some_eq_map {α β : Type} (g : α → β) (l : List α) :
    l.filterMap (fun a => some (g a)) = l.map g := by
  induction l <;> simp_all

/-- Dropping `none`s from an all-`none` list leaves nothing. -/
theorem filterMap_none_eq_nil {α β : Type} (l : List α) :
    l.filterMap (fun _ => (none : Option β)) = [] := by
  induction l <;> simp_all

/-- Collecting second components after a map is a single `filterMap`. -/
theorem filterMap_snd_comp {α β γ : Type} (f : α → γ × Option β) (l : List α) :
    List.filterMap (Prod.snd ∘ f) l = l.filterMap (fun a => (f a).2) := by
  induction l <;> simp_all [List.filterMap_cons, Function.comp]

/-- The serial driver's per-row gradient equation shared by the C4 and C8
theorems: `None` unless the flag computes gradients and the batch is
non-empty, the index-aligned vectors otherwise. -/
theorem gradients_snd_eq {d : ℕ} (op : Mat d) (pl : List (List ℕ)) (aps : List ℕ)
    (rows : List (BoundSample d)) (env : Option String) :
    (gradients op pl aps rows env).2
      = (if ((env.getD "True") = "True") ∧ rows.isEmpty = false
         then some (rows.map (fun s => ((gradients_single op pl aps s env).2).getD []))
         else none) := by
  by_cases hf : (env.getD "True") = "True"
  · cases rows with
    | nil => simp [gradients]
    | cons r rs =>
      have h2 : ∀ s' : BoundSample d, (gradients_single op pl aps s' env).2
          = some (aps.map (fun p =>
              (accumulate_product_rule pl (singleRawGrads op s')).1.getD
                ((accumulate_product_rule pl (singleRawGrads op s')).2.indexOf p) 0)) := by
        intro s'
        simp [gradients_single, hf]
      simp [gradients, hf, filterMap_snd_comp, h2, filterMap_some_eq_map]
  · have h2 : ∀ s' : BoundSample d, (gradients_single op pl aps s' env).2 = none := by
      intro s'
      simp [gradients_single, hf]
    simp [gradients, hf, filterMap_snd_comp, h2, filterMap_none_eq_nil]

/-- C4 counterexample: the claim asserts that a batch of at least 300 rows is
dispatched to a pool of parallel worker processes; in the code the pool branch
is commented out, so no batch size uses the pool. -/
theorem C4_parallel_dispatch_counterexample : ¬ (usesProcessPool 300 = true) := by
  simp [usesProcessPool]

/-- C4 (amended): the Batch Gradient Driver evaluates every batch serially in
input order — the process-pool dispatch is disabled for every batch size — and
its outputs are aligned by index to the input rows: the i-th expectation value
is the single-sample evaluation of row i, and (when gradients are computed and
the batch is non-empty) the i-th gradient vector is the single-sample gradient
of row i. -/
theorem C4_serial_batch_amended :
    ∀ (d : ℕ) (op : Mat d) (pl : List (List ℕ)) (aps : List ℕ)
      (rows : List (BoundSample d)) (env : Option String) (n : ℕ),
      usesProcessPool n = false
      ∧ (gradients op pl aps rows env).1
          = rows.map (fun s => (gradients_single op pl aps s env).1)
      ∧ (gradients op pl aps rows env).2
          = (if ((env.getD "True") = "True") ∧ rows.isEmpty = false
             then some (rows.map (fun s => ((gradients_single op pl aps s env).2).getD []))
             else none) := by
  intro d op pl aps rows env n
  refine ⟨rfl, ?_, gradients_snd_eq op pl aps rows env⟩
  simp [gradients]

/-- C7: the first component `gradients_single` returns is the expectation value
of the fully forward-evolved state against the observable, computed before the
backward sweep; it is unchanged by the sweep — the same value is returned
whether or not the gradient loop runs (i.e. for every value of the gating
flag). -/
theorem C7_expectation_upfront :
    ∀ (d : ℕ) (op : Mat d) (pl : List (List ℕ)) (aps : List ℕ) (s : BoundSample d)
      (env env' : Option String),
      (gradients_single op pl aps s env).1
        = expectation_value (s.ansatzM.mulVec (basis0 d)) op
      ∧ (gradients_single op pl aps s env).1 = (gradients_single op pl aps s env').1 := by
  intro d op pl aps s env env'
  constructor
  · by_cases hf : (env.getD "True") = "True" <;> simp [gradients_single, hf]
  · by_cases hf : (env.getD "True") = "True" <;>
      by_cases hf' : (env'.getD "True") = "True" <;>
        simp [gradients_single, hf, hf']

/-- C8: gradient computation is gated by the process-wide flag
`ESTADO_GLOBAL_EN_ENTRENAMIENTO` (`env` is its value, `none` when unset): when
unset or equal to `"True"`, `gradients_single` returns the gradient vector
reindexed into the circuit-parameter order; for any other value it returns
`None` in the gradient position, and the batch driver then returns `None` in
place of the whole gradient list. -/
theorem C8_env_flag_gating :
    ∀ (d : ℕ) (op : Mat d) (pl : List (List ℕ)) (aps : List ℕ) (s : BoundSample d)
      (rows : List (BoundSample d)) (env : Option String),
      (gradients_single op pl aps s env).2
        = (if (env.getD "True") = "True"
           then some (aps.map (fun p =>
               (accumulate_product_rule pl (singleRawGrads op s)).1.getD
                 ((accumulate_product_rule pl (singleRawGrads op s)).2.indexOf p) 0))
           else none)
      ∧ (gradients op pl aps rows env).2
        = (if ((env.getD "True") = "True") ∧ rows.isEmpty = false
           then some (rows.map (fun s' => ((gradients_single op pl aps s' env).2).getD []))
           else none) := by
  intro d op pl aps s rows env
  refine ⟨?_, gradients_snd_eq op pl aps rows env⟩
  by_cases hf : (env.getD "True") = "True" <;> simp [gradients_single, hf]

/-- The key sum over an empty block list is zero. -/
theorem specKeySum_nil (q : ℕ) : specKeySum q [] = 0 := by
  simp [specKeySum]

/-- Splitting the key sum at the head block. -/
theorem specKeySum_cons (q p : ℕ) (g : ℝ) (rest : List (ℕ × ℝ)) :
    specKeySum q ((p, g) :: rest)
      = if p = q then g + specKeySum q rest else specKeySum q rest := by
  by_cases hpq : p = q <;> simp [specKeySum, List.filter_cons, hpq]

/-- First-seen keys are never already-seen keys. -/
theorem specFirstSeenFrom_not_mem (l : List ℕ) :
    ∀ (seen : List ℕ) (q : ℕ), q ∈ specFirstSeenFrom seen l → q ∉ seen := by
  induction l with
  | nil => intro seen q hq; simp [specFirstSeenFrom] at hq
  | cons p ps ih =>
    intro seen q hq
    by_cases hp : p ∈ seen
    · exact ih seen q (by simpa [specFirstSeenFrom, hp] using hq)
    · rw [specFirstSeenFrom, if_neg hp] at hq
      rcases List.mem_cons.mp hq with h | h
      · exact h ▸ hp
      · intro hqs
        exact ih (seen ++ [p]) q h (List.mem_append_left _ hqs)

/-- Updating an absent key appends a fresh entry at the end. -/
theorem dictAdd_not_mem : ∀ (acc : List (ℕ × ℝ)) (p : ℕ) (g : ℝ),
    p ∉ acc.map Prod.fst → dictAdd acc p g = acc ++ [(p, g)] := by
  intro acc
  induction acc with
  | nil => intro p g _; rfl
  | cons qv rest ih =>
    intro p g hp
    obtain ⟨q, v⟩ := qv
    simp only [List.map_cons, List.mem_cons] at hp
    push_neg at hp
    simp only [dictAdd]
    rw [if_neg (Ne.symm hp.1), ih p g hp.2]
    rfl

/-- Updating a present key (under key uniqueness) rewrites exactly that
entry. -/
theorem dictAdd_mem : ∀ (acc : List (ℕ × ℝ)) (p : ℕ) (g : ℝ),
    (acc.map Prod.fst).Nodup → p ∈ acc.map Prod.fst →
    dictAdd acc p g
      = acc.map (fun qv => if qv.1 = p then (qv.1, qv.2 + g) else qv) := by
  intro acc
  induction acc with
  | nil => intro p g _ hp; simp at hp
  | cons qv rest ih =>
    intro p g hnd hp
    obtain ⟨q, v⟩ := qv
    simp only [List.map_cons, List.nodup_cons, List.mem_cons] at hnd hp
    by_cases hq : q = p
    · have hrest : ∀ ab ∈ rest, (if ab.1 = p then (ab.1, ab.2 + g) else ab) = ab := by
        intro ab hab
        have hne : ab.1 ≠ p := by
          intro habp
          exact hnd.1 (by rw [hq, ← habp]; exact List.mem_map_of_mem Prod.fst hab)
        simp [hne]
      simp only [dictAdd]
      rw [if_pos hq, List.map_cons, List.map_congr_left hrest]
      simp [hq]
    · have hp' : p ∈ rest.map Prod.fst := by
        rcases hp with h | h
        · exact absurd h.symm hq
        · exact h
      simp only [dictAdd]
      rw [if_neg hq, ih p g hnd.2 hp']
      simp [hq]

/-- The keys of the accumulator after an update: unchanged for a present key,
extended by the key otherwise. -/
theorem dictAdd_map_fst (acc : List (ℕ × ℝ)) (p : ℕ) (g : ℝ)
    (hnd : (acc.map Prod.fst).Nodup) :
    (dictAdd acc p g).map Prod.fst
      = if p ∈ acc.map Prod.fst then acc.map Prod.fst
        else acc.map Prod.fst ++ [p] := by
  by_cases hp : p ∈ acc.map Prod.fst
  · rw [dictAdd_mem acc p g hnd hp, if_pos hp, List.map_map]
    refine List.map_congr_left ?_
    intro qv _
    by_cases hq : qv.1 = p <;> simp [hq]
  · rw [dictAdd_not_mem acc p g hp, if_neg hp]
    simp

/-- Key uniqueness is preserved by the accumulator update. -/
theorem dictAdd_nodup (acc : List (ℕ × ℝ)) (p : ℕ) (g : ℝ)
    (hnd : (acc.map Prod.fst).Nodup) :
    ((dictAdd acc p g).map Prod.fst).Nodup := by
  rw [dictAdd_map_fst acc p g hnd]
  by_cases hp : p ∈ acc.map Prod.fst
  · simpa [hp] using hnd
  · rw [if_neg hp, List.nodup_append]
    exact ⟨hnd, List.nodup_singleton p,
      fun a ha hb => hp ((List.mem_singleton.mp hb) ▸ ha)⟩

/-- The accumulator fold, characterized: starting from a uniquely-keyed
accumulator, every present key receives the sum of its matching derivatives,
and the keys not yet present are appended in first-seen order, each with the
sum of its matching derivatives. -/
theorem dict_foldl_spec : ∀ (pairs : List (ℕ × ℝ)) (acc : List (ℕ × ℝ)),
    (acc.map Prod.fst).Nodup →
    pairs.foldl (fun a pg => dictAdd a pg.1 pg.2) acc
      = acc.map (fun qv => (qv.1, qv.2 + specKeySum qv.1 pairs))
        ++ (specFirstSeenFrom (acc.map Prod.fst) (pairs.map Prod.fst)).map
            (fun q => (q, specKeySum q pairs)) := by
  intro pairs
  induction pairs with
  | nil =>
    intro acc _
    simp [specFirstSeenFrom, specKeySum_nil]
  | cons pg rest ih =>
    intro acc hnd
    obtain ⟨p, g⟩ := pg
    rw [List.foldl_cons, ih (dictAdd acc p g) (dictAdd_nodup acc p g hnd)]
    by_cases hp : p ∈ acc.map Prod.fst
    · have hkeys : (dictAdd acc p g).map Prod.fst = acc.map Prod.fst := by
        rw [dictAdd_map_fst acc p g hnd, if_pos hp]
      rw [hkeys, dictAdd_mem acc p g hnd hp, List.map_map]
      have h1 : acc.map
            ((fun qv => (qv.1, qv.2 + specKeySum qv.1 rest))
              ∘ (fun qv => if qv.1 = p then (qv.1, qv.2 + g) else qv))
          = acc.map (fun qv => (qv.1, qv.2 + specKeySum qv.1 ((p, g) :: rest))) := by
        refine List.map_congr_left ?_
        intro qv _
        by_cases hq : qv.1 = p
        · simp [Function.comp, hq, specKeySum_cons, add_assoc]
        · simp [Function.comp, hq, specKeySum_cons, Ne.symm hq]
      have h2 : (specFirstSeenFrom (acc.map Prod.fst) (rest.map Prod.fst)).map
            (fun q => (q, specKeySum q rest))
          = (specFirstSeenFrom (acc.map Prod.fst) (((p, g) :: rest).map Prod.fst)).map
            (fun q => (q, specKeySum q ((p, g) :: rest))) := by
        rw [List.map_cons, specFirstSeenFrom, if_pos hp]
        refine List.map_congr_left ?_
        intro q hq
        have hqp : p ≠ q :=
          fun hpq => specFirstSeenFrom_not_mem _ _ q hq (hpq ▸ hp)
        simp [specKeySum_cons, hqp]
      rw [h1, h2]
    · have hkeys : (dictAdd acc p g).map Prod.fst = acc.map Prod.fst ++ [p] := by
        rw [dictAdd_map_fst acc p g hnd, if_neg hp]
      rw [hkeys, dictAdd_not_mem acc p g hp]
      have h1 : (acc ++ [(p, g)]).map (fun qv => (qv.1, qv.2 + specKeySum qv.1 rest))
          = acc.map (fun qv => (qv.1, qv.2 + specKeySum qv.1 ((p, g) :: rest)))
            ++ [(p, specKeySum p ((p, g) :: rest))] := by
        rw [List.map_append]
        congr 1
        · refine List.map_congr_left ?_
          intro qv hqv
          have hq : p ≠ qv.1 :=
            fun hpq => hp (hpq ▸ List.mem_map_of_mem Prod.fst hqv)
          simp [specKeySum_cons, hq]
        · simp [specKeySum_cons]
      have h2 : (specFirstSeenFrom (acc.map Prod.fst ++ [p]) (rest.map Prod.fst)).map
            (fun q => (q, specKeySum q rest))
          = (specFirstSeenFrom (acc.map Prod.fst ++ [p]) (rest.map Prod.fst)).map
            (fun q => (q, specKeySum q ((p, g) :: rest))) := by
        refine List.map_congr_left ?_
        intro q hq
        have hqp : p ≠ q := by
          intro hpq
          exact specFirstSeenFrom_not_mem _ _ q hq
            (List.mem_append_right _ (by simp [hpq]))
        simp [specKeySum_cons, hqp]
      rw [h1, h2, List.map_cons, specFirstSeenFrom, if_neg hp, List.map_cons]
      simp [specKeySum_cons, List.append_assoc]

/-- C6: for every positionally paired per-block parameter and derivative list,
the Product-Rule Accumulator returns exactly one derivative per distinct
parameter — each the sum of the derivatives of all blocks tagged with that
parameter — with output order the order in which each parameter is first seen
while walking the block list once; in particular a parameter driving two
blocks receives the sum of both occurrences' derivatives. -/
theorem C6_accumulator_spec :
    ∀ (paramlist : List (List ℕ)) (gradients : List ℝ),
      accumulate_product_rule paramlist gradients
        = ((specFirstSeenFrom [] ((blockPairs paramlist gradients).map Prod.fst)).map
             (fun p => specKeySum p (blockPairs paramlist gradients)),
           specFirstSeenFrom [] ((blockPairs paramlist gradients).map Prod.fst)) := by
  intro paramlist gradients
  unfold accumulate_product_rule
  rw [dict_foldl_spec (blockPairs paramlist gradients) [] (by simp)]
  simp [List.map_map, Function.comp]
  rw [show (Prod.fst ∘ fun q => (q, specKeySum q (blockPairs paramlist gradients)))
        = fun q => q from rfl, List.map_id']

/-- Folding a product of matrices from an arbitrary seed. -/
theorem foldl_mul_eq {d : ℕ} : ∀ (L : List (Mat d)) (a : Mat d),
    L.foldl (fun P M => M * P) a = blockProd L * a := by
  intro L
  induction L with
  | nil => intro a; simp [blockProd]
  | cons M L ih =>
    intro a
    simp only [List.foldl_cons]
    rw [ih (M * a)]
    have hcons : blockProd (M :: L) = blockProd L * M := by
      simp only [blockProd, List.foldl_cons]
      rw [show L.foldl (fun P N => N * P) (M * 1) = blockProd L * (M * 1) from ih (M * 1),
        mul_one]
      rfl
    rw [hcons, mul_assoc]

/-- Prepending a block multiplies the block product on the right. -/
theorem blockProd_cons {d : ℕ} (M : Mat d) (L : List (Mat d)) :
    blockProd (M :: L) = blockProd L * M := by
  simp only [blockProd, List.foldl_cons]
  rw [foldl_mul_eq L (M * 1), mul_one]
  rfl

/-- Evolving through a block list is multiplication by the block product. -/
theorem evolveSeq_eq_blockProd {d : ℕ} : ∀ (L : List (Mat d)) (v : QState d),
    evolveSeq v L = (blockProd L).mulVec v := by
  intro L
  induction L with
  | nil => intro v; simp [evolveSeq, blockProd, Matrix.one_mulVec]
  | cons M L ih =>
    intro v
    simp only [evolveSeq, List.foldl_cons]
    rw [show L.foldl (fun st N => N.mulVec st) (M.mulVec v) = evolveSeq (M.mulVec v) L from rfl,
      ih (M.mulVec v), Matrix.mulVec_mulVec, blockProd_cons]

/-- Evolving through a concatenation evolves through the parts in order. -/
theorem evolveSeq_append {d : ℕ} (v : QState d) (L1 L2 : List (Mat d)) :
    evolveSeq v (L1 ++ L2) = evolveSeq (evolveSeq v L1) L2 := by
  simp [evolveSeq, List.foldl_append]

/-- Moving a matrix across the inner product: ⟨Mᴴx, y⟩ = ⟨x, My⟩. -/
theorem conj_dot_dagger {d : ℕ} (M : Mat d) (x y : QState d) :
    conj_dot (Matrix.mulVec Mᴴ x) y = conj_dot x (M.mulVec y) := by
  unfold conj_dot
  rw [Matrix.star_mulVec, Matrix.conjTranspose_conjTranspose, ← Matrix.dotProduct_mulVec]

/-- Taking one more element appends the element at the cut position. -/
theorem take_succ_getD {α : Type} : ∀ (l : List α) (j : ℕ) (dflt : α), j < l.length →
    l.take (j + 1) = l.take j ++ [l.getD j dflt] := by
  intro l
  induction l with
  | nil => intro j dflt hj; simp at hj
  | cons a as ih =>
    intro j dflt hj
    cases j with
    | zero => simp [List.getD]
    | succ k =>
      rw [List.take_succ_cons, List.take_succ_cons, List.getD_cons_succ,
        ih k dflt (Nat.lt_of_succ_lt_succ hj)]
      rfl

/-- Dropping one element fewer exposes the element at the cut position. -/
theorem drop_getD_cons {α : Type} : ∀ (l : List α) (j : ℕ) (dflt : α), j < l.length →
    l.drop j = l.getD j dflt :: l.drop (j + 1) := by
  intro l
  induction l with
  | nil => intro j dflt hj; simp at hj
  | cons a as ih =>
    intro j dflt hj
    cases j with
    | zero => simp
    | succ k => simpa using ih k dflt (Nat.lt_of_succ_lt_succ hj)

/-- The circuit inverse of a unitary block is its conjugate transpose. -/
theorem WellFormed.uinv_eq {d : ℕ} {eng : Engine d} (hwf : WellFormed eng) (j : ℕ)
    (hj : j < eng.U.length) : eng.Uinv.getD j 1 = (eng.U.getD j 1)ᴴ := by
  calc eng.Uinv.getD j 1
      = eng.Uinv.getD j 1 * 1 := (mul_one _).symm
    _ = eng.Uinv.getD j 1 * (eng.U.getD j 1 * (eng.U.getD j 1)ᴴ) := by
        rw [hwf.unitary_right j hj]
    _ = (eng.Uinv.getD j 1 * eng.U.getD j 1) * (eng.U.getD j 1)ᴴ := by
        rw [mul_assoc]
    _ = 1 * (eng.U.getD j 1)ᴴ := by rw [hwf.inv_mul j hj]
    _ = (eng.U.getD j 1)ᴴ := one_mul _

/-- Folding a sum respects pointwise-equal summand functions. -/
theorem foldl_add_congr {α : Type} (l : List α) (f g : α → ℂ)
    (h : ∀ x ∈ l, f x = g x) :
    ∀ a : ℂ, l.foldl (fun acc x => acc + f x) a = l.foldl (fun acc x => acc + g x) a := by
  induction l with
  | nil => intro a; rfl
  | cons b bs ih =>
    intro a
    simp only [List.foldl_cons]
    rw [h b (List.mem_cons_self b bs)]
    exact ih (fun x hx => h x (List.mem_cons_of_mem b hx)) _

/-- The reference engine's spliced forward state, factored: evolve through the
prefix, apply the replacement, then multiply by the product of the suffix. -/
theorem refTermState_eq {d : ℕ} (eng : Engine d) (j : ℕ) (G : Mat d) :
    refTermState eng j G
      = (blockProd (eng.U.drop (j + 1))).mulVec
          (G.mulVec (evolveSeq eng.init (eng.U.take j))) := by
  unfold refTermState
  rw [evolveSeq_append, evolveSeq_append]
  exact evolveSeq_eq_blockProd _ _

/-- One backward-loop step, under the loop invariants: it restores the
invariants one block earlier and emits exactly the reference engine's
derivative for this block. -/
theorem iterStep_spec {d : ℕ} (eng : Engine d) (hwf : WellFormed eng) (j : ℕ)
    (hj : j < eng.U.length) (s : IterState d)
    (hphi : s.phi = evolveSeq eng.init (eng.U.take (j + 1)))
    (hlam : s.lam = lamAt eng (j + 1)) :
    iterStep eng.Uinv eng.deriv j s
      = { phi := evolveSeq eng.init (eng.U.take j),
          lam := if 0 < j then lamAt eng j else s.lam,
          grads := s.grads ++ [refGrad eng j] } := by
  have hbase : (eng.Uinv.getD j 1).mulVec s.phi = evolveSeq eng.init (eng.U.take j) := by
    rw [hphi, take_succ_getD eng.U j 1 hj, evolveSeq_append]
    show (eng.Uinv.getD j 1).mulVec
        ((eng.U.getD j 1).mulVec (evolveSeq eng.init (eng.U.take j))) = _
    rw [Matrix.mulVec_mulVec, hwf.inv_mul j hj, Matrix.one_mulVec]
  have hlamstep : 0 < j → (eng.Uinv.getD j 1).mulVec s.lam = lamAt eng j := by
    intro _
    rw [hlam]
    unfold lamAt
    rw [drop_getD_cons eng.U j 1 hj, blockProd_cons, Matrix.conjTranspose_mul,
      ← Matrix.mulVec_mulVec, hwf.uinv_eq j hj]
  have hgrad : 2 * ((eng.deriv.getD j []).foldl
      (fun acc cg => acc + cg.1 * conj_dot s.lam
        (cg.2.mulVec ((eng.Uinv.getD j 1).mulVec s.phi))) 0).re
      = refGrad eng j := by
    unfold refGrad
    congr 1
    congr 1
    rw [hbase, hlam]
    apply foldl_add_congr
    intro cg _
    congr 1
    rw [refTermState_eq]
    exact conj_dot_dagger (blockProd (eng.U.drop (j + 1))) (lam0 eng)
      (cg.2.mulVec (evolveSeq eng.init (eng.U.take j)))
  simp only [iterStep, IterState.mk.injEq]
  refine ⟨hbase, ?_, ?_⟩
  · by_cases hp : 0 < j
    · simp only [if_pos hp]
      exact hlamstep hp
    · simp only [if_neg hp]
  · rw [hgrad]

/-- The backward loop, run from the invariants at block j, emits exactly the
reference engine's derivatives for blocks j−1 .. 0 (in that order). -/
theorem iterRun_grads {d : ℕ} (eng : Engine d) (hwf : WellFormed eng) :
    ∀ j, j ≤ eng.U.length → ∀ s : IterState d,
      s.phi = evolveSeq eng.init (eng.U.take j) →
      (1 ≤ j → s.lam = lamAt eng j) →
      (iterRun eng.Uinv eng.deriv j s).grads
        = s.grads ++ ((List.range j).reverse.map (refGrad eng)) := by
  intro j
  induction j with
  | zero =>
    intro _ s _ _
    simp [iterRun]
  | succ k ih =>
    intro hk s hphi hlam
    have hkn : k < eng.U.length := hk
    have hlam' : s.lam = lamAt eng (k + 1) := hlam (Nat.le_add_left 1 k)
    show (iterRun eng.Uinv eng.deriv k (iterStep eng.Uinv eng.deriv k s)).grads = _
    rw [iterStep_spec eng hwf k hkn s hphi hlam']
    rcases Nat.eq_zero_or_pos k with h0 | hpos
    · subst h0
      show s.grads ++ [refGrad eng 0] = _
      simp [List.range_succ]
    · rw [ih (le_of_lt hkn) _ rfl (fun _ => by simp only [if_pos hpos])]
      simp [List.range_succ]

/-- The iterative engine's raw per-block list equals the reference engine's. -/
theorem iterativeRaw_eq_referenceRaw {d : ℕ} (eng : Engine d) (hwf : WellFormed eng) :
    iterativeRaw eng = referenceRaw eng := by
  have hphi : eng.ansatzM.mulVec eng.init = evolveSeq eng.init (eng.U.take eng.U.length) := by
    rw [List.take_length, evolveSeq_eq_blockProd, hwf.ansatz_eq]
  have hlam : (1 ≤ eng.U.length) →
      eng.op.mulVec (eng.ansatzM.mulVec eng.init) = lamAt eng eng.U.length := by
    intro _
    unfold lamAt lam0
    rw [List.drop_length]
    simp [blockProd, Matrix.conjTranspose_one, Matrix.one_mulVec]
  simp only [iterativeRaw]
  rw [iterRun_grads eng hwf eng.U.length le_rfl _ hphi hlam]
  simp only [referenceRaw, List.nil_append]
  rw [← List.map_reverse, List.reverse_reverse]

/-- C1: for every well-formed bound evaluation — unitary blocks whose circuit
inverses invert them and whose composition is the bound ansatz, with both
engines expanding the same per-block derivative terms, as they do in the
source — `reference_gradients` and `iterative_gradients` return identical
results on every call path: the same raw per-block vectors, and on the
bound-binding path the same accumulated gradient vector aligned to the same
parameter order (neither engine returns an expectation value, so the
expectation-value part of the claim is vacuous; exact real arithmetic stands
in for floating-point tolerance). -/
theorem C1_cross_engine_agreement :
    ∀ (d : ℕ) (eng : Engine d) (hasBinds : Bool), WellFormed eng →
      reference_gradients eng hasBinds = iterative_gradients eng hasBinds := by
  intro d eng hasBinds hwf
  unfold reference_gradients iterative_gradients
  rw [iterativeRaw_eq_referenceRaw eng hwf]

/-- The one-block identity engine is well-formed. -/
theorem engW_wellFormed : WellFormed engW := by
  refine ⟨?_, ?_, ?_, ?_⟩
  · intro j hj
    have h1 : j < 1 := by simpa [engW] using hj
    obtain rfl : j = 0 := Nat.lt_one_iff.mp h1
    simp [engW]
  · intro j hj
    have h1 : j < 1 := by simpa [engW] using hj
    obtain rfl : j = 0 := Nat.lt_one_iff.mp h1
    simp [engW]
  · intro j hj
    have h1 : j < 1 := by simpa [engW] using hj
    obtain rfl : j = 0 := Nat.lt_one_iff.mp h1
    simp [engW]
  · simp [engW, blockProd]

/-- The one-block identity engine with `target_parameters=None` is
well-formed. -/
theorem engW0_wellFormed : WellFormed engW0 := by
  refine ⟨?_, ?_, ?_, ?_⟩
  · intro j hj
    have h1 : j < 1 := by simpa [engW0, engW] using hj
    obtain rfl : j = 0 := Nat.lt_one_iff.mp h1
    simp [engW0, engW]
  · intro j hj
    have h1 : j < 1 := by simpa [engW0, engW] using hj
    obtain rfl : j = 0 := Nat.lt_one_iff.mp h1
    simp [engW0, engW]
  · intro j hj
    have h1 : j < 1 := by simpa [engW0, engW] using hj
    obtain rfl : j = 0 := Nat.lt_one_iff.mp h1
    simp [engW0, engW]
  · simp [engW0, engW, blockProd]

/-- C1 witness: the hypotheses hold and the engines agree on a concrete
engine. -/
theorem C1_cross_engine_agreement_witness :
    WellFormed engW
    ∧ reference_gradients engW true = iterative_gradients engW true :=
  ⟨engW_wellFormed, C1_cross_engine_agreement 1 engW true engW_wellFormed⟩

/-- C10: constructed with `target_parameters=None` and called with
`parameter_binds=None`, both engines return the raw per-block derivative
list — one real number per unitary block, with no product-rule accumulation
and no parameter pairing — and the two lists are identical, in ascending
original block order (`referenceRaw` is by construction indexed by
`List.range` over the block positions). -/
theorem C10_unbound_raw_path :
    ∀ (d : ℕ) (eng : Engine d), WellFormed eng → eng.paramlist = none →
      reference_gradients eng false = GradOut.raw (referenceRaw eng)
      ∧ iterative_gradients eng false = GradOut.raw (referenceRaw eng)
      ∧ iterativeRaw eng = referenceRaw eng
      ∧ (referenceRaw eng).length = eng.U.length := by
  intro d eng hwf hpl
  refine ⟨?_, ?_, iterativeRaw_eq_referenceRaw eng hwf, by simp [referenceRaw]⟩
  · unfold reference_gradients
    rw [hpl]
  · unfold iterative_gradients
    rw [hpl, iterativeRaw_eq_referenceRaw eng hwf]

/-- C10 witness: the hypotheses hold and the raw path is taken on a concrete
engine built with `target_parameters=None`. -/
theorem C10_unbound_raw_path_witness :
    (WellFormed engW0 ∧ engW0.paramlist = none)
    ∧ reference_gradients engW0 false = GradOut.raw (referenceRaw engW0) :=
  ⟨⟨engW0_wellFormed, rfl⟩, (C10_unbound_raw_path 1 engW0 engW0_wellFormed rfl).1⟩

/-- Mapping an everywhere-successful fallible function succeeds with the
pointwise results. -/
theorem exMapM_ok_of_forall {α β : Type} (f : α → Except String β) (g : α → β) :
    ∀ l : List α, (∀ x ∈ l, f x = .ok (g x)) → exMapM f l = .ok (l.map g) := by
  intro l
  induction l with
  | nil => intro _; rfl
  | cons a as ih =>
    intro h
    simp only [exMapM, h a (List.mem_cons_self a as),
      ih (fun x hx => h x (List.mem_cons_of_mem a hx)), Except.map, List.map_cons]

/-- An everywhere-successful prefix contributes its results in front. -/
theorem exMapM_pass_front {α β : Type} (f : α → Except String β) (g : α → β) :
    ∀ l1 : List α, (∀ x ∈ l1, f x = .ok (g x)) → ∀ l2 : List α,
      exMapM f (l1 ++ l2) = (exMapM f l2).map (fun bs => l1.map g ++ bs) := by
  intro l1
  induction l1 with
  | nil =>
    intro _ l2
    cases hl : exMapM f l2 <;> simp [Except.map, hl]
  | cons a as ih =>
    intro h l2
    rw [List.cons_append]
    simp only [exMapM, h a (List.mem_cons_self a as),
      ih (fun x hx => h x (List.mem_cons_of_mem a hx)) l2]
    cases exMapM f l2 <;> simp [Except.map]

/-- A block with no gate depending on the parameter contributes no product-rule
position. -/
theorem diffPositionsFrom_all_false {p : ℕ} :
    ∀ l : Circ, (∀ x ∈ l, diffCond (some p) x.1 = false) → ∀ i : ℕ,
      diffPositionsFrom p l i = [] := by
  intro l
  induction l with
  | nil => intro _ i; rfl
  | cons a as ih =>
    intro h i
    rw [diffPositionsFrom, if_neg (by simp [h a (List.mem_cons_self a as)])]
    exact ih (fun x hx => h x (List.mem_cons_of_mem a hx)) (i + 1)

/-- A prefix with no dependent gate only shifts the position counter. -/
theorem diffPositionsFrom_append {p : ℕ} :
    ∀ pre : Circ, (∀ x ∈ pre, diffCond (some p) x.1 = false) → ∀ (rest : Circ) (i : ℕ),
      diffPositionsFrom p (pre ++ rest) i = diffPositionsFrom p rest (i + pre.length) := by
  intro pre
  induction pre with
  | nil => intro _ rest i; simp
  | cons a as ih =>
    intro h rest i
    rw [List.cons_append, diffPositionsFrom, if_neg (by simp [h a (List.mem_cons_self a as)]),
      ih (fun x hx => h x (List.mem_cons_of_mem a hx)) rest (i + 1)]
    congr 1
    simp only [List.length_cons]
    omega

/-- When exactly one gate depends on the parameter, its position is the only
product-rule position. -/
theorem diffPositions_single (pre : Circ) (gq : Gate × QArgs) (post : Circ) (p : ℕ)
    (hgq : diffCond (some p) gq.1 = true)
    (hpre : ∀ x ∈ pre, diffCond (some p) x.1 = false)
    (hpost : ∀ x ∈ post, diffCond (some p) x.1 = false) :
    diffPositions (pre ++ gq :: post) p = [pre.length] := by
  unfold diffPositions
  rw [diffPositionsFrom_append pre hpre (gq :: post) 0, diffPositionsFrom, if_pos hgq,
    diffPositionsFrom_all_false post hpost]
  simp

/-- Indexing an append at the length of the prefix reads the next element. -/
theorem getD_append_length {α : Type} (dflt : α) :
    ∀ (pre : List α) (a : α) (post : List α),
      (pre ++ a :: post).getD pre.length dflt = a := by
  intro pre
  induction pre with
  | nil => intro a post; rfl
  | cons b bs ih =>
    intro a post
    rw [show ((b :: bs) ++ a :: post).getD (b :: bs).length dflt
        = (bs ++ a :: post).getD bs.length dflt from rfl]
    exact ih a post

/-- Taking the length of the prefix of an append returns the prefix. -/
theorem take_append_length {α : Type} :
    ∀ pre rest : List α, (pre ++ rest).take pre.length = pre := by
  intro pre
  induction pre with
  | nil => intro _; rfl
  | cons b bs ih =>
    intro rest
    rw [show ((b :: bs) ++ rest).take (b :: bs).length
        = b :: (bs ++ rest).take bs.length from rfl]
    rw [ih rest]

/-- Dropping one past the prefix of an append skips the next element too. -/
theorem drop_append_cons {α : Type} :
    ∀ (pre : List α) (a : α) (post : List α),
      (pre ++ a :: post).drop (pre.length + 1) = post := by
  intro pre
  induction pre with
  | nil => intro a post; simp
  | cons b bs ih =>
    intro a post
    rw [show ((b :: bs) ++ a :: post).drop ((b :: bs).length + 1)
        = (bs ++ a :: post).drop (bs.length + 1) from rfl]
    exact ih a post

/-- The length of a rectangular flatMap. -/
theorem flatMap_map_length {α β γ : Type} (l : List α) (L : List β) (f : α → β → γ) :
    (l.flatMap (fun a => L.map (f a))).length = l.length * L.length := by
  induction l with
  | nil => simp
  | cons a as ih =>
    simp [ih]
    ring

/-- The Cartesian product has as many elements as the product of the factor
counts. -/
theorem cartProd_length {α : Type} : ∀ ls : List (List α),
    (cartProd ls).length = (ls.map List.length).prod := by
  intro ls
  induction ls with
  | nil => rfl
  | cons l rest ih =>
    simp only [cartProd, List.map_cons, List.prod_cons]
    rw [flatMap_map_length l (cartProd rest) (fun a c => a :: c), ih]

/-- C3 (amended): for every block in which exactly one gate depends on the
target parameter — the supported configuration, with the dependent gate of a
supported rotation type so that the expansion succeeds — the terms
`analytic_gradient` returns are exactly the product-rule derivative
`d(g1·…·gk) = Σ over i of g1·…·(dgi)·…·gk` (a single summand here), so their
weighted sum equals the product-rule derivative; and the result has exactly
product-over-gates(term-count) entries, 1 per pass-through gate and the lookup
count for the differentiated gate. -/
theorem C3_product_rule_amended :
    ∀ (circ : Circ) (p : ℕ) (pre post : Circ) (gq : Gate × QArgs) (ts : List (CQ × Circ)),
      circ = pre ++ gq :: post →
      diffCond (some p) gq.1 = true →
      (∀ x ∈ pre, diffCond (some p) x.1 = false) →
      (∀ x ∈ post, diffCond (some p) x.1 = false) →
      analytic_gradient circ (some p) = .ok ts →
      specProductRuleTerms circ p = .ok ts
      ∧ ts.length = termCountProd circ (some p) := by
  intro circ p pre post gq ts hsplit hgq hpre hpost hok
  subst hsplit
  have hmem : p ∈ circParams (pre ++ gq :: post) := by
    have hex : ∃ e ∈ gq.1.params, p ∈ e.freeParams := by
      simpa [diffCond, List.any_eq_true] using hgq
    obtain ⟨e, he, hpe⟩ := hex
    simp only [circParams, List.mem_flatten, List.mem_map]
    refine ⟨(gq.1.params.map ParamExpr.freeParams).flatten, ⟨gq, ?_, rfl⟩, ?_⟩
    · exact List.mem_append_right pre (List.mem_cons_self gq post)
    · simp only [List.mem_flatten, List.mem_map]
      exact ⟨e.freeParams, ⟨e, he, rfl⟩, hpe⟩
  have hag : analytic_gradient (pre ++ gq :: post) (some p)
      = (summandsFor (pre ++ gq :: post) (some p)).map
          (expandSummands ((pre ++ gq :: post).map Prod.snd)) := by
    simp only [analytic_gradient]
    rw [if_pos hmem]
  have hpre' : ∀ x ∈ pre, (if diffCond (some p) x.1 then gradient_lookup x.1
      else Except.ok (passthroughTerm x.1)) = .ok (passthroughTerm x.1) := by
    intro x hx
    rw [if_neg (by simp [hpre x hx])]
  have hpost' : ∀ x ∈ post, (if diffCond (some p) x.1 then gradient_lookup x.1
      else Except.ok (passthroughTerm x.1)) = .ok (passthroughTerm x.1) := by
    intro x hx
    rw [if_neg (by simp [hpost x hx])]
  obtain ⟨dg, hdg⟩ : ∃ dg, gradient_lookup gq.1 = .ok dg := by
    rcases hlk : gradient_lookup gq.1 with e | dg
    · exfalso
      rw [hag] at hok
      unfold summandsFor at hok
      rw [exMapM_pass_front _ _ pre hpre' (gq :: post)] at hok
      simp [exMapM, hgq, hlk, Except.map] at hok
    · exact ⟨dg, rfl⟩
  have hS : summandsFor (pre ++ gq :: post) (some p)
      = .ok (pre.map (fun x => passthroughTerm x.1)
          ++ dg :: post.map (fun x => passthroughTerm x.1)) := by
    unfold summandsFor
    rw [exMapM_pass_front _ _ pre hpre' (gq :: post)]
    have h2 : exMapM (fun gq' => if diffCond (some p) gq'.1 then gradient_lookup gq'.1
        else Except.ok (passthroughTerm gq'.1)) (gq :: post)
        = .ok (dg :: post.map (fun x => passthroughTerm x.1)) := by
      simp only [exMapM, hgq, if_pos, hdg,
        exMapM_ok_of_forall _ _ post hpost', Except.map]
    rw [h2]
    simp [Except.map]
  have hts : ts = expandSummands ((pre ++ gq :: post).map Prod.snd)
      (pre.map (fun x => passthroughTerm x.1)
        ++ dg :: post.map (fun x => passthroughTerm x.1)) := by
    rw [hag, hS] at hok
    simpa [Except.map] using hok.symm
  constructor
  · unfold specProductRuleTerms
    rw [diffPositions_single pre gq post p hgq hpre hpost]
    have hsame : summandsOnlyAt (pre ++ gq :: post) pre.length
        = .ok (pre.map (fun x => passthroughTerm x.1)
            ++ dg :: post.map (fun x => passthroughTerm x.1)) := by
      unfold summandsOnlyAt
      rw [show gateAt (pre ++ gq :: post) pre.length = gq from
          getD_append_length (Gate.x, []) pre gq post,
        hdg, take_append_length pre (gq :: post), drop_append_cons pre gq post]
      simp [Except.map]
    simp only [exMapM, hsame, Except.map]
    rw [hts]
    simp
  · rw [hts]
    unfold expandSummands
    rw [List.length_map, cartProd_length]
    unfold termCountProd
    congr 1
    simp only [List.map_append, List.map_cons, List.map_map]
    congr 1
    · refine List.map_congr_left ?_
      intro x hx
      simp [Function.comp, passthroughTerm, termCount, hpre x hx]
    · congr 1
      · simp [termCount, hgq, lookupLen, hdg, passthroughTerm]
      · refine List.map_congr_left ?_
        intro x hx
        simp [Function.comp, passthroughTerm, termCount, hpost x hx]

/-- On `goodBlock` — X then RX(p), only the rotation depending on the
parameter — `analytic_gradient` returns the single term (i/2) · X·RX·X. -/
theorem analytic_goodBlock_eval : analytic_gradient goodBlock (some 0)
    = .ok [(CQ.mk 0 (1/2), [(.x, [0]), (.rx rawP, [0]), (.x, [0])])] := by
  simp [analytic_gradient, summandsFor, exMapM, Except.map, circParams, rawP, goodBlock, diffCond,
    Gate.params, ParamExpr.freeParams, gradient_lookup, cartProd, expandSummands, assembleTerm,
    appendAt, passthroughTerm, cqMul, cqOfQ, cqOne, ParamExpr.gradient, Gate.numQubits]

/-- C3 witness: on a concrete supported block the hypotheses hold and the
expansion equals the product rule with the predicted term count. -/
theorem C3_product_rule_amended_witness :
    (goodBlock = [((Gate.x : Gate), ([0] : QArgs))] ++ ((Gate.rx rawP, [0]) : Gate × QArgs) :: []
      ∧ diffCond (some 0) (Gate.rx rawP) = true
      ∧ analytic_gradient goodBlock (some 0)
          = .ok [(CQ.mk 0 (1/2), [(.x, [0]), (.rx rawP, [0]), (.x, [0])])])
    ∧ specProductRuleTerms goodBlock 0
        = .ok [(CQ.mk 0 (1/2), [(.x, [0]), (.rx rawP, [0]), (.x, [0])])]
    ∧ ([((CQ.mk 0 (1/2) : CQ),
          ([(Gate.x, [0]), (Gate.rx rawP, [0]), (Gate.x, [0])] : Circ))]).length
        = termCountProd goodBlock (some 0) :=
  ⟨⟨rfl, rfl, analytic_goodBlock_eval⟩,
    (C3_product_rule_amended goodBlock 0 [(.x, [0])] [] (.rx rawP, [0]) _
      rfl rfl (by decide) (by decide) analytic_goodBlock_eval).1,
    (C3_product_rule_amended goodBlock 0 [(.x, [0])] [] (.rx rawP, [0]) _
      rfl rfl (by decide) (by decide) analytic_goodBlock_eval).2⟩

end QGrad
